import Mathlib

/-!
Verification development for the protocol-translation layer of the
`copilot-api` gateway: the Anthropic/OpenAI request and response
translators and the streaming transcoder
(`src/services/anthropic/streaming.ts`, `src/services/anthropic/converters.ts`,
the `/v1/messages` handler, and the tokenizer wrapper).

The TypeScript sources are shallowly embedded: each Lean definition
mirrors one source function; JavaScript truthiness on optional strings
is made explicit (`none` and `some ""` are falsy); JS `Map`s and `Set`s
become association lists and lists kept in insertion order (JS `Map.set`
and `Set.add` append, and iteration follows insertion order); the
dynamically typed slot that receives the estimated-input-token value is
a sum type `TokensVal`, because the handler can pass values of more than
one runtime shape through it.
-/

namespace CopilotApi

/-- JavaScript truthiness for an optional string field: `undefined`,
`null` and the empty string are falsy. -/
def truthyS (o : Option String) : Bool :=
  match o with
  | none => false
  | some s => !s.data.isEmpty

/-- Embeds `estimateTokenCount` (streaming.ts line 266): about one token
per four characters, rounded up. -/
def estimateTokenCount (text : String) : Nat :=
  (text.length + 3) / 4

/-- Embeds the `openaiToAnthropicStopReasonMap` lookup with its
`|| "end_turn"` default (streaming.ts lines 37-43).  The source repeats
the identical literal table in `converters.ts` (`stopReasonMap`,
lines 499-505); both embeddings share this single definition. -/
def openaiToAnthropicStopReason (r : String) : String :=
  if r = "stop" then "end_turn"
  else if r = "length" then "max_tokens"
  else if r = "tool_calls" then "tool_use"
  else if r = "function_call" then "tool_use"
  else if r = "content_filter" then "stop_sequence"
  else "end_turn"

/-! ### JSON values and `JSON.parse`

The response translator calls `JSON.parse` on tool-call argument
strings.  `Json` models the values `JSON.parse` can return; numbers are
kept as their raw source text (the translator never computes with
them).  `parseJson` is a total, fuel-based recursive-descent parser for
the JSON grammar; `JSON.parse` throwing is modelled as `none`. -/

inductive Json where
  | null
  | bool (b : Bool)
  | num (raw : String)
  | str (s : String)
  | arr (elements : List Json)
  | obj (members : List (String × Json))
deriving Repr

/-- The opening brace character. -/
def lbrace : Char := Char.ofNat 123

/-- The closing brace character. -/
def rbrace : Char := Char.ofNat 125

/-- JSON insignificant whitespace. -/
def jsonWs (c : Char) : Bool :=
  c = ' ' || c = '\t' || c = '\n' || c = '\r'

/-- Drop leading JSON whitespace. -/
def skipWs : List Char → List Char
  | [] => []
  | c :: cs => if jsonWs c then skipWs cs else c :: cs

/-- Value of a hexadecimal digit, if any. -/
def hexDigitVal (c : Char) : Option Nat :=
  if '0' ≤ c ∧ c ≤ '9' then some (c.toNat - '0'.toNat)
  else if 'a' ≤ c ∧ c ≤ 'f' then some (c.toNat - 'a'.toNat + 10)
  else if 'A' ≤ c ∧ c ≤ 'F' then some (c.toNat - 'A'.toNat + 10)
  else none

/-- Single-character JSON string escapes. -/
def escapeChar (c : Char) : Option Char :=
  if c = '"' then some '"'
  else if c = '\\' then some '\\'
  else if c = '/' then some '/'
  else if c = 'b' then some (Char.ofNat 8)
  else if c = 'f' then some (Char.ofNat 12)
  else if c = 'n' then some '\n'
  else if c = 'r' then some '\r'
  else if c = 't' then some '\t'
  else none

/-- Parse the body of a JSON string after its opening quote, returning
the decoded characters and the remaining input. -/
def parseStrBody : Nat → List Char → Option (List Char × List Char)
  | 0, _ => none
  | _, [] => none
  | fuel + 1, c :: cs =>
    if c = '"' then some ([], cs)
    else if c = '\\' then
      match cs with
      | [] => none
      | e :: cs2 =>
        if e = 'u' then
          match cs2 with
          | h1 :: h2 :: h3 :: h4 :: cs3 =>
            match hexDigitVal h1, hexDigitVal h2, hexDigitVal h3, hexDigitVal h4 with
            | some a, some b, some c2, some d =>
              match parseStrBody fuel cs3 with
              | some (rest, rem) =>
                some (Char.ofNat (((a * 16 + b) * 16 + c2) * 16 + d) :: rest, rem)
              | none => none
            | _, _, _, _ => none
          | _ => none
        else
          match escapeChar e with
          | some ch =>
            match parseStrBody fuel cs2 with
            | some (rest, rem) => some (ch :: rest, rem)
            | none => none
          | none => none
    else if c.toNat < 32 then none
    else
      match parseStrBody fuel cs with
      | some (rest, rem) => some (c :: rest, rem)
      | none => none

/-- Decimal digit test. -/
def isDigitC (c : Char) : Bool := '0' ≤ c && c ≤ '9'

/-- Split off a maximal run of leading decimal digits. -/
def takeDigits : List Char → List Char × List Char
  | [] => ([], [])
  | c :: cs =>
    if isDigitC c then
      let p := takeDigits cs
      (c :: p.1, p.2)
    else ([], c :: cs)

/-- Parse the integer part of a JSON number (`0`, or a nonzero digit
followed by digits). -/
def parseIntRaw : List Char → Option (List Char × List Char)
  | [] => none
  | c :: cs =>
    if c = '0' then some ([c], cs)
    else if isDigitC c then
      let p := takeDigits cs
      some (c :: p.1, p.2)
    else none

/-- Parse a JSON number, returning its raw text and the rest of the
input. -/
def parseNumber (cs : List Char) : Option (List Char × List Char) :=
  let pneg : List Char × List Char :=
    match cs with
    | '-' :: rest => (['-'], rest)
    | _ => ([], cs)
  match parseIntRaw pneg.2 with
  | none => none
  | some (ip, cs2) =>
    let pfrac : List Char × List Char :=
      match cs2 with
      | '.' :: rest =>
        match takeDigits rest with
        | ([], _) => ([], cs2)
        | (ds, rem) => ('.' :: ds, rem)
      | _ => ([], cs2)
    let pexp : List Char × List Char :=
      match pfrac.2 with
      | e :: rest =>
        if e = 'e' ∨ e = 'E' then
          match rest with
          | s :: rest2 =>
            if s = '+' ∨ s = '-' then
              match takeDigits rest2 with
              | ([], _) => ([], pfrac.2)
              | (ds, rem) => (e :: s :: ds, rem)
            else
              match takeDigits rest with
              | ([], _) => ([], pfrac.2)
              | (ds, rem) => (e :: ds, rem)
          | [] => ([], pfrac.2)
        else ([], pfrac.2)
      | [] => ([], pfrac.2)
    some (pneg.1 ++ ip ++ pfrac.1 ++ pexp.1, pexp.2)

mutual

/-- Parse one JSON value. -/
def parseValue : Nat → List Char → Option (Json × List Char)
  | 0, _ => none
  | fuel + 1, cs =>
    match skipWs cs with
    | [] => none
    | c :: cs1 =>
      if c = '"' then
        match parseStrBody fuel cs1 with
        | some (chars, rem) => some (Json.str (String.mk chars), rem)
        | none => none
      else if c = lbrace then
        match skipWs cs1 with
        | c2 :: cs2 =>
          if c2 = rbrace then some (Json.obj [], cs2)
          else
            match parseMembers fuel (c2 :: cs2) with
            | some (ms, rem) => some (Json.obj ms, rem)
            | none => none
        | [] => none
      else if c = '[' then
        match skipWs cs1 with
        | c2 :: cs2 =>
          if c2 = ']' then some (Json.arr [], cs2)
          else
            match parseElements fuel (c2 :: cs2) with
            | some (es, rem) => some (Json.arr es, rem)
            | none => none
        | [] => none
      else if c = 't' then
        match cs1 with
        | 'r' :: 'u' :: 'e' :: rem => some (Json.bool true, rem)
        | _ => none
      else if c = 'f' then
        match cs1 with
        | 'a' :: 'l' :: 's' :: 'e' :: rem => some (Json.bool false, rem)
        | _ => none
      else if c = 'n' then
        match cs1 with
        | 'u' :: 'l' :: 'l' :: rem => some (Json.null, rem)
        | _ => none
      else if c = '-' || isDigitC c then
        match parseNumber (c :: cs1) with
        | some (raw, rem) => some (Json.num (String.mk raw), rem)
        | none => none
      else none

/-- Parse the members of a JSON object after its opening brace (at
least one member). -/
def parseMembers : Nat → List Char → Option (List (String × Json) × List Char)
  | 0, _ => none
  | fuel + 1, cs =>
    match skipWs cs with
    | c :: cs1 =>
      if c = '"' then
        match parseStrBody fuel cs1 with
        | some (kchars, cs2) =>
          match skipWs cs2 with
          | ':' :: cs3 =>
            match parseValue fuel cs3 with
            | some (v, cs4) =>
              match skipWs cs4 with
              | ',' :: cs5 =>
                match parseMembers fuel cs5 with
                | some (ms, rem) => some ((String.mk kchars, v) :: ms, rem)
                | none => none
              | c6 :: cs6 =>
                if c6 = rbrace then some ([(String.mk kchars, v)], cs6) else none
              | [] => none
            | none => none
          | _ => none
        | none => none
      else none
    | [] => none

/-- Parse the elements of a JSON array after its opening bracket (at
least one element). -/
def parseElements : Nat → List Char → Option (List Json × List Char)
  | 0, _ => none
  | fuel + 1, cs =>
    match parseValue fuel cs with
    | some (v, cs1) =>
      match skipWs cs1 with
      | ',' :: cs2 =>
        match parseElements fuel cs2 with
        | some (es, rem) => some (v :: es, rem)
        | none => none
      | ']' :: cs2 => some ([v], cs2)
      | _ => none
    | none => none

end

/-- Embeds `JSON.parse` on a whole string: a throw is `none`.  The fuel
bounds the recursion depth and exceeds what any input of this length
can consume. -/
def parseJson (s : String) : Option Json :=
  match parseValue (2 * s.length + 4) s.data with
  | some (j, rem) => if (skipWs rem).isEmpty then some j else none
  | none => none

/-! ### Non-streaming response translation (`converters.ts`)

`convertOpenAIToAnthropicResponse` (converters.ts lines 491-576) turns a
completed OpenAI-style chat completion into an Anthropic message.  The
assembly of the content array and the stop-reason computation are split
into two named definitions so theorems can refer to the content before
the empty-content fallback is applied; together they follow the source
line by line. -/

/-- OpenAI-style function payload of a tool call (`ToolCall.function`). -/
structure FunctionCall where
  name : String
  arguments : String
deriving Repr

/-- OpenAI-style tool call in a completed message (`ToolCall`). -/
structure RToolCall where
  id : String
  type : String
  function : FunctionCall
deriving Repr

/-- The message inside a non-streaming choice.  `content` is a string
or `null`; `tool_calls` may be absent. -/
structure RMessage where
  content : Option String
  tool_calls : Option (List RToolCall)
deriving Repr

/-- A non-streaming choice (`ChoiceNonStreaming`). -/
structure RChoice where
  message : RMessage
  finish_reason : String
deriving Repr

/-- A completed OpenAI-style response (`ChatCompletionResponse`); only
the fields the translator reads. -/
structure ChatCompletionResponse where
  id : Option String
  choices : List RChoice
deriving Repr

/-- Anthropic content block of the translated response. -/
inductive ContentBlock where
  | text (text : String)
  | tool_use (id : String) (name : String) (input : Json)
deriving Repr

/-- Anthropic-style response (`AnthropicMessagesResponse`); `type` and
`role` are the constants `"message"`/`"assistant"` in the source and are
omitted. -/
structure AnthropicResponse where
  id : String
  model : String
  content : List ContentBlock
  stop_reason : String
  input_tokens : Nat
  output_tokens : Nat
deriving Repr

/-- Embeds the per-tool-call argument handling of
`convertOpenAIToAnthropicResponse` (converters.ts lines 524-535):
`JSON.parse` the arguments; a non-null value of `typeof "object"`
(object or array) is used directly, any other parsed value is wrapped
as `{value: scalar}` (`null` included, since `parsedInput !== null`
fails for it), and a parse failure yields
`{error_parsing_arguments: raw}`.  The `catch` makes this total: no
exception escapes. -/
def toolInputDict (args : String) : Json :=
  match parseJson args with
  | some j =>
    match j with
    | Json.obj ms => Json.obj ms
    | Json.arr es => Json.arr es
    | other => Json.obj [("value", other)]
  | none => Json.obj [("error_parsing_arguments", Json.str args)]

/-- Content blocks contributed by the tool calls: one `tool_use` block
per call whose `type` is `"function"` (converters.ts lines 521-544). -/
def toolBlocks (calls : List RToolCall) : List ContentBlock :=
  calls.filterMap fun call =>
    if call.type = "function" then
      some (ContentBlock.tool_use call.id call.function.name
        (toolInputDict call.function.arguments))
    else none

/-- The content array assembled from the first choice, before the
empty-content fallback (converters.ts lines 507-549): a text block when
`message.content` is truthy, then the tool-use blocks. -/
def assembledContent (r : ChatCompletionResponse) : List ContentBlock :=
  match r.choices with
  | [] => []
  | choice :: _ =>
    (if truthyS choice.message.content then
      [ContentBlock.text (choice.message.content.getD "")]
    else [])
    ++ (match choice.message.tool_calls with
        | none => []
        | some calls => toolBlocks calls)

/-- The translated stop reason (converters.ts lines 497-548): the shared
table applied to the first choice's finish reason, overridden to
`tool_use` when `tool_calls` is present on the message and the finish
reason is `"tool_calls"`. -/
def responseStopReason (r : ChatCompletionResponse) : String :=
  match r.choices with
  | [] => "end_turn"
  | choice :: _ =>
    let sr := openaiToAnthropicStopReason choice.finish_reason
    match choice.message.tool_calls with
    | none => sr
    | some _ => if choice.finish_reason = "tool_calls" then "tool_use" else sr

/-- Embeds `convertOpenAIToAnthropicResponse` (converters.ts lines
491-576).  The source's optional `requestId` is always supplied by the
handler, so it is a plain `String` here; the `randomUUID()` fallback for
a missing request id is therefore not modelled. -/
def convertOpenAIToAnthropicResponse (r : ChatCompletionResponse)
    (originalAnthropicModel : String) (requestId : String) : AnthropicResponse :=
  let c0 := assembledContent r
  { id :=
      match r.id with
      | some i =>
        if !i.data.isEmpty then "msg_" ++ i
        else "msg_" ++ requestId ++ "_completed"
      | none => "msg_" ++ requestId ++ "_completed",
    model := originalAnthropicModel,
    content := if c0.isEmpty then [ContentBlock.text ""] else c0,
    stop_reason := responseStopReason r,
    input_tokens := 0,
    output_tokens := 0 }

/-! ### Tool-choice translation (`converters.ts` lines 465-489) -/

/-- Anthropic tool-choice object: a `type` tag and an optional name. -/
structure AnthropicToolChoice where
  type : String
  name : Option String
deriving Repr

/-- OpenAI-style tool-choice value produced by the converter; the
source can return the string `"auto"` or a forced named-function
object (it never returns `"none"`). -/
inductive OpenAIToolChoice where
  | auto
  | function (name : String)
deriving Repr, DecidableEq

/-- Embeds `convertAnthropicToolChoiceToOpenAI`: an absent choice maps
to `undefined` (`none`, so the handler omits the field), `auto` and
`any` map to `"auto"`, `tool` with a truthy name maps to the forced
named form, and everything else falls through to `"auto"`. -/
def convertAnthropicToolChoiceToOpenAI :
    Option AnthropicToolChoice → Option OpenAIToolChoice
  | none => none
  | some c =>
    if c.type = "auto" then some OpenAIToolChoice.auto
    else if c.type = "any" then some OpenAIToolChoice.auto
    else if c.type = "tool" ∧ truthyS c.name then
      some (OpenAIToolChoice.function (c.name.getD ""))
    else some OpenAIToolChoice.auto

/-- Embeds the handler's payload assignment (`handler.ts` lines 95-97):
`if (openaiToolChoice) { openaiPayload.tool_choice = openaiToolChoice }`,
so `none` means the payload carries no `tool_choice` field (every
`OpenAIToolChoice` value is truthy). -/
def payloadToolChoice (tc : Option AnthropicToolChoice) : Option OpenAIToolChoice :=
  convertAnthropicToolChoiceToOpenAI tc

/-! ### Token estimation (`lib/tokenizer.ts`)

`getTokenCount` converts messages to the tokenizer's chat format and
returns the record `{input, output}`.  The external `countTokens`
function from `gpt-tokenizer` is not part of this repository and is a
parameter of the embedding. -/

/-- A content part of an OpenAI-style message (`ContentPart`). -/
structure ContentPart where
  type : String
  text : Option String
  image_url : Option String
deriving Repr

/-- OpenAI-style message content: a string, a part array, or `null`. -/
inductive MsgContent where
  | str (s : String)
  | parts (ps : List ContentPart)
  | null
deriving Repr

/-- OpenAI-style chat message (`Message`); only the fields the
tokenizer wrapper reads. -/
structure Message where
  role : String
  content : MsgContent
  tool_calls : Option (List RToolCall)
  name : Option String
deriving Repr

/-- Message in the `gpt-tokenizer` chat format (`ChatMessage`). -/
structure ChatMessage where
  role : String
  content : String
deriving Repr

/-- Embeds `convertToTokenizerFormat` (tokenizer.ts lines 11-72). -/
def convertToTokenizerFormat (message : Message) : Option ChatMessage :=
  let role := if message.role = "tool" then "assistant" else message.role
  match message.content with
  | MsgContent.str s => some { role := role, content := s }
  | MsgContent.null =>
    match message.tool_calls with
    | some calls =>
      if calls.length > 0 then
        some { role := role,
               content := String.intercalate " " (calls.map fun tc =>
                 "Function call: " ++ tc.function.name ++ "(" ++ tc.function.arguments ++ ")") }
      else if message.role = "tool" ∧ truthyS message.name then
        some { role := "assistant",
               content := "Tool response from " ++ message.name.getD "" }
      else none
    | none =>
      if message.role = "tool" ∧ truthyS message.name then
        some { role := "assistant",
               content := "Tool response from " ++ message.name.getD "" }
      else none
  | MsgContent.parts ps =>
    let textContent := String.intercalate " "
      ((ps.map fun part =>
          if part.type = "input_text" ∧ truthyS part.text then part.text.getD ""
          else "").filter fun s => !s.data.isEmpty)
    if !textContent.trim.data.isEmpty then
      some { role := role, content := textContent }
    else none

/-- The `{input, output}` record returned by `getTokenCount`. -/
structure TokenCount where
  input : Nat
  output : Nat
deriving Repr, DecidableEq

/-- Embeds `getTokenCount` (tokenizer.ts lines 74-90), parameterized by
the external `countTokens` function of `gpt-tokenizer`. -/
def getTokenCount (countTok : List ChatMessage → Nat) (messages : List Message) : TokenCount :=
  let convertedMessages := messages.filterMap convertToTokenizerFormat
  { input := countTok (convertedMessages.filter fun m => m.role ≠ "assistant"),
    output := countTok (convertedMessages.filter fun m => m.role = "assistant") }

/-! ### Streaming transcoder (`streaming.ts`)

`convertOpenAIStreamToAnthropic` consumes parsed OpenAI chunks and
yields Anthropic SSE events.  The embedding works on already-parsed
chunks (the SSE-envelope/`JSON.parse` recovery of lines 67-92 only
skips unparseable chunks and is outside every claim), represents each
yielded SSE frame by a value of `AnthropicEvent` carrying exactly the
data the source serializes, and returns the finite list of events of a
normally-terminating run (the `catch` branch of lines 252-263 fires
only when the upstream iterable itself throws, which a pure chunk list
cannot).  The random `anthropicMessageId` (line 22) appears in no
claim and is omitted from the event. -/

/-- The value the handler passes as `estimatedInputTokens`.  The slot
is dynamically typed in JavaScript: the parameter is declared `number`,
but the call site in `handler.ts` line 111 passes the whole
`getTokenCount` record, so the embedding keeps both shapes. -/
inductive TokensVal where
  | ofNat (n : Nat)
  | ofCount (tc : TokenCount)
deriving Repr, DecidableEq

/-- `delta.tool_calls[i].function` of a streamed chunk. -/
structure FnDelta where
  name : Option String
  arguments : Option String
deriving Repr

/-- One entry of `delta.tool_calls` (`DeltaToolCall`). -/
structure DeltaToolCall where
  index : Nat
  id : Option String
  function : Option FnDelta
deriving Repr

/-- The `delta` of a streamed choice. -/
structure Delta where
  content : Option String
  tool_calls : Option (List DeltaToolCall)
deriving Repr

/-- A streamed choice (`Choice`). -/
structure ChunkChoice where
  delta : Delta
  finish_reason : Option String
deriving Repr

/-- A parsed streamed chunk (`ChatCompletionChunk`); only `choices` is
read by the transcoder. -/
structure Chunk where
  choices : List ChunkChoice
deriving Repr

/-- One Anthropic SSE event as yielded by the transcoder, carrying the
data the source writes into the frame.  `message_start` records the
model, the dynamically typed `usage.input_tokens` value and the
(always empty) content array of the message literal. -/
inductive AnthropicEvent where
  | message_start (model : String) (inputTokens : TokensVal) (content : List ContentBlock)
  | ping
  | content_block_start_text (index : Nat)
  | content_block_start_tool (index : Nat) (id : String) (name : String)
  | content_block_delta_text (index : Nat) (text : String)
  | content_block_delta_args (index : Nat) (partialJson : String)
  | content_block_stop (index : Nat)
  | message_delta (stopReason : String) (outputTokens : Nat)
  | message_stop
deriving Repr

/-- Buffered per-tool state (`toolStates` map values). -/
structure ToolState where
  id : String
  name : String
  argumentsBuffer : String
deriving Repr, DecidableEq

/-- The transcoder's cross-chunk mutable state: the block-index
counter, the open text block, the two JS `Map`s (as association lists
in insertion order), the JS `Set` of started tool blocks (as a list in
insertion order), the output-token accumulator, and the pending stop
reason. -/
structure St where
  nextIdx : Nat
  textIdx : Option Nat
  toolIdxMap : List (Nat × Nat)
  toolStates : List (Nat × ToolState)
  sentStarts : List Nat
  outputTokens : Nat
  stopReason : String
deriving Repr

/-- Association-list lookup, the embedding of `Map.get`. -/
def lookupN {α : Type} (k : Nat) : List (Nat × α) → Option α
  | [] => none
  | (k2, v) :: rest => if k = k2 then some v else lookupN k rest

/-- Association-list update at an existing key, the embedding of
`Map.set` on a present key (entry position is preserved). -/
def setEntry {α : Type} (m : List (Nat × α)) (k : Nat) (v : α) : List (Nat × α) :=
  match m with
  | [] => []
  | (k2, v2) :: rest => if k2 = k then (k2, v) :: rest else (k2, v2) :: setEntry rest k v

/-- The placeholder-id test `toolState.id.startsWith("tool_ph_")`. -/
def isPlaceholderId (s : String) : Bool :=
  "tool_ph_".data.isPrefixOf s.data

/-- The condition of streaming.ts lines 161-166 on the buffered state
(without the `sentToolBlockStarts` part): a truthy id that is not a
placeholder, and a truthy name. -/
def toolOpenable (ts : ToolState) : Bool :=
  !ts.id.data.isEmpty && !isPlaceholderId ts.id && !ts.name.data.isEmpty

/-- Embeds streaming.ts lines 130-140: on first sight of an OpenAI tool
index, allocate the next Anthropic block index and initialize the
buffered state (placeholder id when the chunk supplies none).  Returns
the state and the Anthropic block index of this tool call. -/
def allocTool (requestId : String) (s : St) (td : DeltaToolCall) : St × Nat :=
  match lookupN td.index s.toolIdxMap with
  | some b => (s, b)
  | none =>
    let b := s.nextIdx
    ({ s with
        nextIdx := b + 1,
        toolIdxMap := s.toolIdxMap ++ [(td.index, b)],
        toolStates := s.toolStates ++ [(b,
          { id := if truthyS td.id then td.id.getD ""
                  else "tool_ph_" ++ requestId ++ "_" ++ toString b,
            name := "",
            argumentsBuffer := "" })] }, b)

/-- Embeds streaming.ts lines 145-158: replace a placeholder id by a
truthy incoming id, overwrite the name by a truthy incoming name, and
append truthy incoming argument fragments to the buffer. -/
def updateToolState (ts : ToolState) (td : DeltaToolCall) : ToolState :=
  let ts1 := if truthyS td.id && isPlaceholderId ts.id then { ts with id := td.id.getD "" } else ts
  match td.function with
  | none => ts1
  | some f =>
    let ts2 := if truthyS f.name then { ts1 with name := f.name.getD "" } else ts1
    if truthyS f.arguments then
      { ts2 with argumentsBuffer := ts2.argumentsBuffer ++ f.arguments.getD "" }
    else ts2

/-- The truthy argument fragment of this tool-call delta, if any. -/
def tdArgs (td : DeltaToolCall) : Option String :=
  match td.function with
  | none => none
  | some f => if truthyS f.arguments then some (f.arguments.getD "") else none

/-- The part of the tool-call loop body after the block index is
known (streaming.ts lines 142-195): update the buffered state, count
argument tokens, emit `content_block_start` once the block is openable
and not yet started, and emit an `input_json_delta` for the current
fragment only when the block has started. -/
def processToolDeltaCore (s1 : St) (b : Nat) (td : DeltaToolCall) :
    St × List AnthropicEvent :=
  let ts0 := (lookupN b s1.toolStates).getD { id := "", name := "", argumentsBuffer := "" }
  let ts := updateToolState ts0 td
  let s2 := { s1 with
      toolStates := setEntry s1.toolStates b ts,
      outputTokens := s1.outputTokens +
        (match tdArgs td with
         | some a => estimateTokenCount a
         | none => 0) }
  let startNow := !s2.sentStarts.contains b && toolOpenable ts
  let s3 := if startNow then { s2 with sentStarts := s2.sentStarts ++ [b] } else s2
  let startEvs := if startNow then [AnthropicEvent.content_block_start_tool b ts.id ts.name] else []
  let deltaEvs :=
    match tdArgs td with
    | some a => if s3.sentStarts.contains b then [AnthropicEvent.content_block_delta_args b a] else []
    | none => []
  (s3, startEvs ++ deltaEvs)

/-- One iteration of the `for (const toolDelta of delta.tool_calls)`
loop (streaming.ts lines 127-196): allocation followed by the core. -/
def processToolDelta (requestId : String) (s : St) (td : DeltaToolCall) :
    St × List AnthropicEvent :=
  let p := allocTool requestId s td
  processToolDeltaCore p.1 p.2 td

/-- The tool-call loop over all deltas of one chunk. -/
def processToolDeltas (requestId : String) (s : St) :
    List DeltaToolCall → St × List AnthropicEvent
  | [] => (s, [])
  | td :: tds =>
    let p := processToolDelta requestId s td
    let q := processToolDeltas requestId p.1 tds
    (q.1, p.2 ++ q.2)

/-- Embeds the text handling of one chunk (streaming.ts lines 102-123):
on truthy `delta.content`, count tokens, open the single text block if
needed, and always emit a `text_delta`. -/
def processText (s : St) (contentOpt : Option String) : St × List AnthropicEvent :=
  if truthyS contentOpt then
    let text := contentOpt.getD ""
    let s1 := { s with outputTokens := s.outputTokens + estimateTokenCount text }
    match s1.textIdx with
    | some t => (s1, [AnthropicEvent.content_block_delta_text t text])
    | none =>
      let t := s1.nextIdx
      ({ s1 with textIdx := some t, nextIdx := t + 1 },
       [AnthropicEvent.content_block_start_text t,
        AnthropicEvent.content_block_delta_text t text])
  else (s, [])

/-- Embeds streaming.ts lines 200-206: map the finish reason through
the shared table (with the redundant `tool_calls → tool_use`
double-assignment kept). -/
def applyFinish (s : St) (r : String) : St :=
  let sr := openaiToAnthropicStopReason r
  { s with stopReason := if r = "tool_calls" then "tool_use" else sr }

/-- Embeds one iteration of the chunk loop (streaming.ts lines 94-207):
skip chunks without choices, process text then tool calls of the first
choice, and on a truthy finish reason record the stop reason and
signal the loop to break (the `Bool` component). -/
def processChunk (requestId : String) (s : St) (ch : Chunk) :
    St × List AnthropicEvent × Bool :=
  match ch.choices with
  | [] => (s, ([], false))
  | choice :: _ =>
    let p := processText s choice.delta.content
    let q :=
      match choice.delta.tool_calls with
      | none => (p.1, ([] : List AnthropicEvent))
      | some tds => processToolDeltas requestId p.1 tds
    let evs := p.2 ++ q.2
    if truthyS choice.finish_reason then
      (applyFinish q.1 (choice.finish_reason.getD ""), (evs, true))
    else (q.1, (evs, false))

/-- The chunk loop: consume chunks in order, stopping early after the
first chunk that carries a truthy finish reason. -/
def runLoop (requestId : String) (s : St) : List Chunk → St × List AnthropicEvent
  | [] => (s, [])
  | ch :: rest =>
    let p := processChunk requestId s ch
    if p.2.2 then (p.1, p.2.1)
    else
      let q := runLoop requestId p.1 rest
      (q.1, p.2.1 ++ q.2)

/-- `content_block_stop` for the text block, if one was opened
(streaming.ts lines 210-216). -/
def textStopEvents (s : St) : List AnthropicEvent :=
  match s.textIdx with
  | some t => [AnthropicEvent.content_block_stop t]
  | none => []

/-- Embeds the post-loop emission (streaming.ts lines 209-250): stop
the text block, stop every started tool block in start order (the
JSON-validity check of lines 221-226 only logs and changes nothing),
then `message_delta` with the final stop reason and token estimate,
then `message_stop`. -/
def epilogue (s : St) : List AnthropicEvent :=
  textStopEvents s
  ++ s.sentStarts.map (fun b => AnthropicEvent.content_block_stop b)
  ++ [AnthropicEvent.message_delta s.stopReason s.outputTokens,
      AnthropicEvent.message_stop]

/-- The transcoder's initial state (streaming.ts lines 24-35). -/
def initSt : St :=
  { nextIdx := 0, textIdx := none, toolIdxMap := [], toolStates := [],
    sentStarts := [], outputTokens := 0, stopReason := "end_turn" }

/-- Embeds `convertOpenAIStreamToAnthropic` on a normally-terminating
run: `message_start` (with the dynamically typed input-token value and
the empty content array of the message literal), `ping`, the chunk
loop, and the epilogue. -/
def convertOpenAIStreamToAnthropic (originalAnthropicModel : String)
    (estimatedInputTokens : TokensVal) (requestId : String)
    (chunks : List Chunk) : List AnthropicEvent :=
  let p := runLoop requestId initSt chunks
  AnthropicEvent.message_start originalAnthropicModel estimatedInputTokens []
    :: AnthropicEvent.ping
    :: (p.2 ++ epilogue p.1)

/-- Embeds the streaming branch of `handleAnthropicMessages`
(handler.ts lines 109-122): the value passed as `estimatedInputTokens`
is the whole record `getTokenCount(openaiMessages)` (line 111), not a
number, so it enters the transcoder as `TokensVal.ofCount`. -/
def handleStreaming (countTok : List ChatMessage → Nat) (openaiMessages : List Message)
    (originalAnthropicModel : String) (requestId : String)
    (chunks : List Chunk) : List AnthropicEvent :=
  convertOpenAIStreamToAnthropic originalAnthropicModel
    (TokensVal.ofCount (getTokenCount countTok openaiMessages)) requestId chunks

/-! ### Observations on event sequences -/

/-- The block index announced by a `content_block_start` event. -/
def startIndex : AnthropicEvent → Option Nat
  | AnthropicEvent.content_block_start_text i => some i
  | AnthropicEvent.content_block_start_tool i _ _ => some i
  | _ => none

/-- The block index of a `content_block_stop` event. -/
def stopIndex : AnthropicEvent → Option Nat
  | AnthropicEvent.content_block_stop i => some i
  | _ => none

/-- The block index carried by any block-level event. -/
def evIndex : AnthropicEvent → Option Nat
  | AnthropicEvent.content_block_start_text i => some i
  | AnthropicEvent.content_block_start_tool i _ _ => some i
  | AnthropicEvent.content_block_delta_text i _ => some i
  | AnthropicEvent.content_block_delta_args i _ => some i
  | AnthropicEvent.content_block_stop i => some i
  | _ => none

/-- The indices of the `content_block_start` events, in emission
order. -/
def startIndices (evs : List AnthropicEvent) : List Nat := evs.filterMap startIndex

/-- The indices of the `content_block_stop` events, in emission
order. -/
def stopIndices (evs : List AnthropicEvent) : List Nat := evs.filterMap stopIndex

/-- Events that may legally sit between `ping` and the final
`message_delta`: anything block-level. -/
def isMidEvent : AnthropicEvent → Bool
  | AnthropicEvent.message_start _ _ _ => false
  | AnthropicEvent.ping => false
  | AnthropicEvent.message_delta _ _ => false
  | AnthropicEvent.message_stop => false
  | _ => true

/-- Events the chunk loop can emit: block starts and deltas. -/
def isLoopEvent : AnthropicEvent → Bool
  | AnthropicEvent.content_block_start_text _ => true
  | AnthropicEvent.content_block_start_tool _ _ _ => true
  | AnthropicEvent.content_block_delta_text _ _ => true
  | AnthropicEvent.content_block_delta_args _ _ => true
  | _ => false

/-- All events that mention block index `b`. -/
def eventsForIndex (b : Nat) (evs : List AnthropicEvent) : List AnthropicEvent :=
  evs.filter fun e => evIndex e == some b

/-- The `input_json_delta` payloads emitted for block `b`, in order. -/
def argPayloads (b : Nat) (evs : List AnthropicEvent) : List String :=
  evs.filterMap fun e =>
    match e with
    | AnthropicEvent.content_block_delta_args i p => if i = b then some p else none
    | _ => none

/-- The blocks whose `content_block_start` has been emitted: the open
text block, then the started tool blocks in start order.  This is
exactly the index list the epilogue stops. -/
def started (s : St) : List Nat :=
  (match s.textIdx with
   | some t => [t]
   | none => []) ++ s.sentStarts

/-- The Anthropic block indices allocated to tool calls. -/
def toolIdxs (s : St) : List Nat := s.toolIdxMap.map fun p => p.2

/-! ### Association-list lemmas -/

theorem lookupN_mem_values {α : Type} {k : Nat} {v : α} :
    ∀ {m : List (Nat × α)}, lookupN k m = some v → v ∈ m.map (fun p => p.2) := by
  intro m
  induction m with
  | nil => intro h; simp [lookupN] at h
  | cons hd tl ih =>
    intro h
    simp only [lookupN] at h
    by_cases hk : k = hd.1
    · simp [hk] at h
      simp [← h]
    · simp [hk] at h
      simp [ih h]

theorem lookupN_isSome_of_mem_keys {α : Type} {k : Nat} :
    ∀ {m : List (Nat × α)}, k ∈ m.map (fun p => p.1) → ∃ v, lookupN k m = some v := by
  intro m
  induction m with
  | nil => intro h; simp at h
  | cons hd tl ih =>
    intro h
    simp only [lookupN]
    by_cases hk : k = hd.1
    · exact ⟨hd.2, by simp [hk]⟩
    · simp only [List.map_cons, List.mem_cons] at h
      rcases h with h | h
      · exact absurd h hk
      · rcases ih h with ⟨v, hv⟩
        exact ⟨v, by simp [hk, hv]⟩

theorem lookupN_append_ne {α : Type} {k b : Nat} {v : α} (hne : k ≠ b) :
    ∀ (m : List (Nat × α)), lookupN k (m ++ [(b, v)]) = lookupN k m := by
  intro m
  induction m with
  | nil => simp [lookupN, hne]
  | cons hd tl ih =>
    simp only [List.cons_append, lookupN]
    by_cases hk : k = hd.1 <;> simp [hk, ih]

theorem lookupN_append_self {α : Type} {b : Nat} {v : α} :
    ∀ {m : List (Nat × α)}, b ∉ m.map (fun p => p.1) →
      lookupN b (m ++ [(b, v)]) = some v := by
  intro m
  induction m with
  | nil => intro _; simp [lookupN]
  | cons hd tl ih =>
    intro h
    simp only [List.map_cons, List.mem_cons] at h
    push_neg at h
    simp only [List.cons_append, lookupN]
    simp [h.1, ih h.2]

theorem setEntry_keys {α : Type} (k : Nat) (v : α) :
    ∀ (m : List (Nat × α)), (setEntry m k v).map (fun p => p.1) = m.map (fun p => p.1) := by
  intro m
  induction m with
  | nil => simp [setEntry]
  | cons hd tl ih =>
    simp only [setEntry]
    by_cases hk : hd.1 = k <;> simp [hk, ih]

theorem lookupN_setEntry_self {α : Type} {k : Nat} {v : α} :
    ∀ {m : List (Nat × α)}, k ∈ m.map (fun p => p.1) →
      lookupN k (setEntry m k v) = some v := by
  intro m
  induction m with
  | nil => intro h; simp at h
  | cons hd tl ih =>
    rcases hd with ⟨a, w⟩
    intro h
    simp only [setEntry]
    by_cases hk : a = k
    · subst hk
      simp [lookupN]
    · simp only [List.map_cons, List.mem_cons] at h
      rcases h with h | h
      · exact absurd h (fun hh => hk hh.symm)
      · simp only [if_neg hk, lookupN]
        rw [if_neg (fun hh : k = a => hk hh.symm)]
        exact ih h

theorem lookupN_setEntry_ne {α : Type} {k k2 : Nat} {v : α} (hne : k2 ≠ k) :
    ∀ (m : List (Nat × α)), lookupN k2 (setEntry m k v) = lookupN k2 m := by
  intro m
  induction m with
  | nil => simp [setEntry]
  | cons hd tl ih =>
    rcases hd with ⟨a, w⟩
    simp only [setEntry]
    by_cases hk : a = k
    · subst hk
      simp [lookupN, hne]
    · simp only [if_neg hk, lookupN]
      by_cases hk2 : k2 = a
      · simp [hk2]
      · simp [hk2, ih]

theorem contains_true_iff_mem {l : List Nat} {a : Nat} :
    l.contains a = true ↔ a ∈ l := by
  simp [List.contains, List.elem_iff]

/-! ### Truthiness and openability lemmas -/

theorem truthyS_getD {o : Option String} (h : truthyS o = true) :
    (o.getD "").data.isEmpty = false := by
  cases o with
  | none => simp [truthyS] at h
  | some s => simpa [truthyS] using h

theorem updateToolState_openable {ts : ToolState} (td : DeltaToolCall)
    (h : toolOpenable ts = true) : toolOpenable (updateToolState ts td) = true := by
  have hph : isPlaceholderId ts.id = false := by
    rcases Bool.and_eq_true_iff.1 h with ⟨h1, _⟩
    rcases Bool.and_eq_true_iff.1 h1 with ⟨_, h2⟩
    simpa using h2
  unfold updateToolState
  simp only [hph, Bool.and_false, Bool.false_eq_true, if_false]
  cases td.function with
  | none => exact h
  | some f =>
    by_cases hn : truthyS f.name = true
    · by_cases ha : truthyS f.arguments = true
      · simp only [hn, if_pos rfl, ha]
        unfold toolOpenable at h ⊢
        rcases Bool.and_eq_true_iff.1 h with ⟨h1, _⟩
        rcases Bool.and_eq_true_iff.1 h1 with ⟨hid, hpl⟩
        simp [hid, hpl, truthyS_getD hn]
      · simp only [hn, if_pos rfl, ha]
        unfold toolOpenable at h ⊢
        rcases Bool.and_eq_true_iff.1 h with ⟨h1, _⟩
        rcases Bool.and_eq_true_iff.1 h1 with ⟨hid, hpl⟩
        simp [hid, hpl, truthyS_getD hn, if_neg]
    · by_cases ha : truthyS f.arguments = true
      · simp only [hn, ha]
        unfold toolOpenable at h ⊢
        simpa using h
      · simp only [hn, ha]
        exact h

/-! ### The state invariant and the step specification -/

/-- Invariant of the transcoder state: the tool-state map is keyed by
the allocated tool block indices, every allocated index is below the
counter and allocated at most once, the text block index is below the
counter and distinct from every tool index, and the started tool
blocks are allocated, pairwise distinct, and openable in the buffered
state. -/
structure StInv (s : St) : Prop where
  keys_eq : s.toolStates.map (fun p => p.1) = toolIdxs s
  tool_lt : ∀ i ∈ toolIdxs s, i < s.nextIdx
  tool_nd : (toolIdxs s).Nodup
  text_lt : ∀ t, s.textIdx = some t → t < s.nextIdx
  text_nt : ∀ t, s.textIdx = some t → t ∉ toolIdxs s
  sent_sub : ∀ b ∈ s.sentStarts, b ∈ toolIdxs s
  sent_nd : s.sentStarts.Nodup
  sent_open : ∀ b ∈ s.sentStarts,
    ∃ ts, lookupN b s.toolStates = some ts ∧ toolOpenable ts = true

/-- What one processing step guarantees: the invariant is preserved,
the counter grows, an open text block stays open, started blocks are
only appended, the emitted `content_block_start` indices are exactly
the newly started blocks, only loop events are emitted, and every
emitted index is a started block afterwards. -/
structure StepSpec (s s2 : St) (evs : List AnthropicEvent) : Prop where
  inv : StInv s2
  next_mono : s.nextIdx ≤ s2.nextIdx
  text_mono : ∀ t, s.textIdx = some t → s2.textIdx = some t
  sent_ext : ∃ new, s2.sentStarts = s.sentStarts ++ new
  starts_perm : (started s ++ startIndices evs).Perm (started s2)
  loop_only : ∀ e ∈ evs, isLoopEvent e = true
  idx_in : ∀ e ∈ evs, ∀ i, evIndex e = some i → i ∈ started s2

theorem mem_started {s : St} {i : Nat} :
    i ∈ started s ↔ s.textIdx = some i ∨ i ∈ s.sentStarts := by
  cases h : s.textIdx <;> simp [started, h, eq_comm]

theorem started_subset {s s2 : St} {evs : List AnthropicEvent}
    (h : StepSpec s s2 evs) : ∀ i, i ∈ started s → i ∈ started s2 := by
  intro i hi
  rcases mem_started.1 hi with hti | hsi
  · exact mem_started.2 (Or.inl (h.text_mono i hti))
  · rcases h.sent_ext with ⟨new, hnew⟩
    exact mem_started.2 (Or.inr (by simp [hnew, hsi]))

theorem StepSpec.refl {s : St} (h : StInv s) : StepSpec s s [] := by
  refine ⟨h, le_refl _, fun t ht => ht, ⟨[], by simp⟩, by simp [startIndices], ?_, ?_⟩
  · intro e he; simp at he
  · intro e he; simp at he

theorem StepSpec.trans {s s2 s3 : St} {evs evs2 : List AnthropicEvent}
    (h : StepSpec s s2 evs) (h2 : StepSpec s2 s3 evs2) :
    StepSpec s s3 (evs ++ evs2) := by
  refine ⟨h2.inv, le_trans h.next_mono h2.next_mono,
    fun t ht => h2.text_mono t (h.text_mono t ht), ?_, ?_, ?_, ?_⟩
  · rcases h.sent_ext with ⟨n1, e1⟩
    rcases h2.sent_ext with ⟨n2, e2⟩
    exact ⟨n1 ++ n2, by simp [e2, e1]⟩
  · have hsi : startIndices (evs ++ evs2) = startIndices evs ++ startIndices evs2 := by
      simp [startIndices]
    rw [hsi, ← List.append_assoc]
    exact (h.starts_perm.append_right _).trans h2.starts_perm
  · intro e he
    rcases List.mem_append.1 he with he | he
    · exact h.loop_only e he
    · exact h2.loop_only e he
  · intro e he i hi
    rcases List.mem_append.1 he with he | he
    · exact started_subset h2 i (h.idx_in e he i hi)
    · exact h2.idx_in e he i hi

theorem StInv.congr {s s2 : St} (h : StInv s)
    (hts : s2.toolStates = s.toolStates) (htm : s2.toolIdxMap = s.toolIdxMap)
    (hni : s2.nextIdx = s.nextIdx) (hti : s2.textIdx = s.textIdx)
    (hss : s2.sentStarts = s.sentStarts) : StInv s2 := by
  have htx : toolIdxs s2 = toolIdxs s := by unfold toolIdxs; rw [htm]
  exact ⟨by rw [hts, htx]; exact h.keys_eq,
    by rw [htx, hni]; exact h.tool_lt,
    by rw [htx]; exact h.tool_nd,
    by rw [hti, hni]; exact h.text_lt,
    by rw [hti, htx]; exact h.text_nt,
    by rw [hss, htx]; exact h.sent_sub,
    by rw [hss]; exact h.sent_nd,
    by rw [hss, hts]; exact h.sent_open⟩

/-- A step that changes neither the block bookkeeping nor emits
events (only `outputTokens`/`stopReason` may change). -/
theorem StepSpec.noop {s s2 : St} (h : StInv s)
    (hts : s2.toolStates = s.toolStates) (htm : s2.toolIdxMap = s.toolIdxMap)
    (hni : s2.nextIdx = s.nextIdx) (hti : s2.textIdx = s.textIdx)
    (hss : s2.sentStarts = s.sentStarts) : StepSpec s s2 [] := by
  have hst : started s2 = started s := by unfold started; rw [hti, hss]
  refine ⟨StInv.congr h hts htm hni hti hss, le_of_eq hni.symm,
    fun t ht => by rw [hti]; exact ht, ⟨[], by rw [hss, List.append_nil]⟩,
    by rw [hst]; simp [startIndices], ?_, ?_⟩
  · intro e he; simp at he
  · intro e he; simp at he

theorem initSt_inv : StInv initSt := by
  refine ⟨rfl, ?_, ?_, ?_, ?_, ?_, ?_, ?_⟩ <;>
    simp [initSt, toolIdxs]

/-- A step emitting one `text_delta` on the already-open text block. -/
theorem StepSpec.one_delta_text {s s2 : St} (h : StInv s) (t : Nat) (x : String)
    (ht : s.textIdx = some t)
    (hts : s2.toolStates = s.toolStates) (htm : s2.toolIdxMap = s.toolIdxMap)
    (hni : s2.nextIdx = s.nextIdx) (hti : s2.textIdx = s.textIdx)
    (hss : s2.sentStarts = s.sentStarts) :
    StepSpec s s2 [AnthropicEvent.content_block_delta_text t x] := by
  have hst : started s2 = started s := by unfold started; rw [hti, hss]
  refine ⟨StInv.congr h hts htm hni hti hss, le_of_eq hni.symm,
    fun t2 ht2 => by rw [hti]; exact ht2, ⟨[], by rw [hss, List.append_nil]⟩, ?_, ?_, ?_⟩
  · rw [hst]
    simp only [startIndices, List.filterMap_cons, startIndex, List.filterMap_nil,
      List.append_nil]
    exact List.Perm.refl _
  · intro e he
    simp only [List.mem_singleton] at he
    simp [he, isLoopEvent]
  · intro e he i hi
    simp only [List.mem_singleton] at he
    subst he
    simp only [evIndex, Option.some_inj] at hi
    subst hi
    exact mem_started.2 (Or.inl (by rw [hti]; exact ht))

/-- A step opening the text block at the current counter and emitting
its first `text_delta`. -/
theorem StepSpec.open_text {s s2 : St} (h : StInv s) (x : String)
    (ht : s.textIdx = none)
    (hts : s2.toolStates = s.toolStates) (htm : s2.toolIdxMap = s.toolIdxMap)
    (hni : s2.nextIdx = s.nextIdx + 1) (hti : s2.textIdx = some s.nextIdx)
    (hss : s2.sentStarts = s.sentStarts) :
    StepSpec s s2 [AnthropicEvent.content_block_start_text s.nextIdx,
                   AnthropicEvent.content_block_delta_text s.nextIdx x] := by
  have htx : toolIdxs s2 = toolIdxs s := by unfold toolIdxs; rw [htm]
  refine ⟨?_, by rw [hni]; exact Nat.le_succ _, ?_, ⟨[], by rw [hss, List.append_nil]⟩,
    ?_, ?_, ?_⟩
  · refine ⟨by rw [hts, htx]; exact h.keys_eq, ?_, by rw [htx]; exact h.tool_nd,
      ?_, ?_, ?_, by rw [hss]; exact h.sent_nd, by rw [hss, hts]; exact h.sent_open⟩
    · intro i hi
      rw [htx] at hi
      rw [hni]
      exact Nat.lt_succ_of_lt (h.tool_lt i hi)
    · intro t2 ht2
      rw [hti, Option.some_inj] at ht2
      subst ht2
      rw [hni]
      exact Nat.lt_succ_self _
    · intro t2 ht2
      rw [hti, Option.some_inj] at ht2
      subst ht2
      rw [htx]
      intro hmem
      exact absurd (h.tool_lt _ hmem) (lt_irrefl _)
    · intro b2 hb2
      rw [hss] at hb2
      rw [htx]
      exact h.sent_sub b2 hb2
  · intro t2 ht2
    rw [ht] at ht2
    exact absurd ht2 (by simp)
  · simp only [startIndices, List.filterMap_cons, startIndex, List.filterMap_nil,
      List.append_nil]
    unfold started
    rw [ht, hti, hss, List.nil_append]
    exact List.perm_append_singleton _ _
  · intro e he
    simp only [List.mem_cons, List.mem_singleton] at he
    rcases he with he | he | he
    · simp [he, isLoopEvent]
    · simp [he, isLoopEvent]
    · simp at he
  · intro e he i hi
    simp only [List.mem_cons, List.mem_singleton] at he
    have hig : i = s.nextIdx := by
      rcases he with he | he | he
      · subst he; simpa [evIndex] using hi.symm
      · subst he; simpa [evIndex] using hi.symm
      · simp at he
    subst hig
    exact mem_started.2 (Or.inl hti)

theorem processText_spec (c : Option String) {s : St} (h : StInv s) :
    StepSpec s (processText s c).1 (processText s c).2 := by
  unfold processText
  by_cases hc : truthyS c = true
  · rw [if_pos hc]
    cases ht : s.textIdx with
    | some t =>
      simp only [ht]
      exact StepSpec.one_delta_text h t (c.getD "") ht rfl rfl rfl (by rw [ht]) rfl
    | none =>
      simp only [ht]
      exact StepSpec.open_text h (c.getD "") ht rfl rfl rfl rfl rfl
  · rw [if_neg hc]
    exact StepSpec.refl h

/-- A step allocating a fresh tool block: the maps grow by one fresh
entry, nothing is emitted. -/
theorem StepSpec.alloc {s s2 : St} (h : StInv s) (e : Nat × Nat) (v : ToolState)
    (he : e.2 = s.nextIdx)
    (hts : s2.toolStates = s.toolStates ++ [(s.nextIdx, v)])
    (htm : s2.toolIdxMap = s.toolIdxMap ++ [e])
    (hni : s2.nextIdx = s.nextIdx + 1) (hti : s2.textIdx = s.textIdx)
    (hss : s2.sentStarts = s.sentStarts) :
    StepSpec s s2 [] ∧ s.nextIdx ∈ toolIdxs s2 := by
  have htx : toolIdxs s2 = toolIdxs s ++ [s.nextIdx] := by
    unfold toolIdxs
    rw [htm]
    simp [he]
  have hfresh : s.nextIdx ∉ toolIdxs s := by
    intro hmem
    exact absurd (h.tool_lt _ hmem) (lt_irrefl _)
  constructor
  · refine ⟨?_, by rw [hni]; exact Nat.le_succ _, fun t ht => by rw [hti]; exact ht,
      ⟨[], by rw [hss, List.append_nil]⟩, ?_, ?_, ?_⟩
    · refine ⟨?_, ?_, ?_, ?_, ?_, ?_, by rw [hss]; exact h.sent_nd, ?_⟩
      · rw [hts, htx]
        simp only [List.map_append, List.map_cons, List.map_nil]
        rw [h.keys_eq]
      · intro i hi
        rw [htx] at hi
        rw [hni]
        rcases List.mem_append.1 hi with hi | hi
        · exact Nat.lt_succ_of_lt (h.tool_lt i hi)
        · simp only [List.mem_singleton] at hi
          subst hi
          exact Nat.lt_succ_self _
      · rw [htx]
        simp only [List.nodup_append, List.nodup_cons, List.not_mem_nil,
          not_false_iff, List.nodup_nil, true_and, and_true]
        refine ⟨h.tool_nd, ?_⟩
        intro a ha
        simp only [List.mem_singleton]
        intro hb
        subst hb
        exact hfresh ha
      · intro t ht
        rw [hti] at ht
        rw [hni]
        exact Nat.lt_succ_of_lt (h.text_lt t ht)
      · intro t ht
        rw [hti] at ht
        rw [htx]
        intro hmem
        rcases List.mem_append.1 hmem with hm | hm
        · exact h.text_nt t ht hm
        · simp only [List.mem_singleton] at hm
          subst hm
          exact absurd (h.text_lt _ ht) (lt_irrefl _)
      · intro b2 hb2
        rw [hss] at hb2
        rw [htx]
        exact List.mem_append.2 (Or.inl (h.sent_sub b2 hb2))
      · intro b2 hb2
        rw [hss] at hb2
        rcases h.sent_open b2 hb2 with ⟨ts2, hl2, ho2⟩
        refine ⟨ts2, ?_, ho2⟩
        have hne : b2 ≠ s.nextIdx := by
          intro hb
          exact hfresh (hb ▸ h.sent_sub b2 hb2)
        rw [hts, lookupN_append_ne hne]
        exact hl2
    · have hst : started s2 = started s := by unfold started; rw [hti, hss]
      rw [hst]
      simp [startIndices]
    · intro e2 he2; simp at he2
    · intro e2 he2; simp at he2
  · rw [htx]
    simp

theorem allocTool_spec (r : String) (td : DeltaToolCall) {s : St} (h : StInv s) :
    StepSpec s (allocTool r s td).1 [] ∧
      (allocTool r s td).2 ∈ toolIdxs (allocTool r s td).1 := by
  cases hl : lookupN td.index s.toolIdxMap with
  | some b =>
    have heq : allocTool r s td = (s, b) := by simp [allocTool, hl]
    rw [heq]
    exact ⟨StepSpec.refl h, lookupN_mem_values hl⟩
  | none =>
    simp only [allocTool, hl]
    exact StepSpec.alloc h (td.index, s.nextIdx) _ rfl rfl rfl rfl rfl rfl

/-- A step replacing the buffered state of an allocated tool block
(and possibly the token accumulator): nothing is emitted, and
openability at that key is preserved. -/
theorem StepSpec.set_tool {s : St} (s2 : St) (h : StInv s) {b : Nat} {ts : ToolState}
    (hb : b ∈ toolIdxs s)
    (hopen : ∀ ts0, lookupN b s.toolStates = some ts0 →
      toolOpenable ts0 = true → toolOpenable ts = true)
    (hts : s2.toolStates = setEntry s.toolStates b ts)
    (htm : s2.toolIdxMap = s.toolIdxMap) (hni : s2.nextIdx = s.nextIdx)
    (hti : s2.textIdx = s.textIdx) (hss : s2.sentStarts = s.sentStarts) :
    StepSpec s s2 [] ∧ lookupN b s2.toolStates = some ts := by
  have htx : toolIdxs s2 = toolIdxs s := by unfold toolIdxs; rw [htm]
  have hbkey : b ∈ s.toolStates.map (fun p => p.1) := by rw [h.keys_eq]; exact hb
  have hlookself : lookupN b s2.toolStates = some ts := by
    rw [hts]
    exact lookupN_setEntry_self hbkey
  refine ⟨⟨?_, le_of_eq hni.symm, fun t ht => by rw [hti]; exact ht,
    ⟨[], by rw [hss, List.append_nil]⟩, ?_, ?_, ?_⟩, hlookself⟩
  · refine ⟨?_, by rw [htx, hni]; exact h.tool_lt, by rw [htx]; exact h.tool_nd,
      by rw [hti, hni]; exact h.text_lt, by rw [hti, htx]; exact h.text_nt,
      by rw [hss, htx]; exact h.sent_sub, by rw [hss]; exact h.sent_nd, ?_⟩
    · rw [hts, setEntry_keys, h.keys_eq, htx]
    · intro b2 hb2
      rw [hss] at hb2
      rcases h.sent_open b2 hb2 with ⟨ts2, hl2, ho2⟩
      by_cases hbe : b2 = b
      · subst hbe
        exact ⟨ts, hlookself, hopen ts2 hl2 ho2⟩
      · refine ⟨ts2, ?_, ho2⟩
        rw [hts, lookupN_setEntry_ne hbe]
        exact hl2
  · have hst : started s2 = started s := by unfold started; rw [hti, hss]
    rw [hst]
    simp [startIndices]
  · intro e2 he2; simp at he2
  · intro e2 he2; simp at he2

/-- A step starting an allocated, openable, not-yet-started tool block:
it is appended to the started set and its `content_block_start` is
emitted. -/
theorem StepSpec.start_tool {s : St} (s2 : St) (h : StInv s) {b : Nat} {ts : ToolState}
    (i2 n2 : String)
    (hb : b ∈ toolIdxs s) (hlook : lookupN b s.toolStates = some ts)
    (hopen : toolOpenable ts = true) (hnb : b ∉ s.sentStarts)
    (hts : s2.toolStates = s.toolStates) (htm : s2.toolIdxMap = s.toolIdxMap)
    (hni : s2.nextIdx = s.nextIdx) (hti : s2.textIdx = s.textIdx)
    (hss : s2.sentStarts = s.sentStarts ++ [b]) :
    StepSpec s s2 [AnthropicEvent.content_block_start_tool b i2 n2] := by
  have htx : toolIdxs s2 = toolIdxs s := by unfold toolIdxs; rw [htm]
  have hbmem : b ∈ s2.sentStarts := by rw [hss]; simp
  refine ⟨?_, le_of_eq hni.symm, fun t ht => by rw [hti]; exact ht,
    ⟨[b], by rw [hss]⟩, ?_, ?_, ?_⟩
  · refine ⟨by rw [hts, htx]; exact h.keys_eq, by rw [htx, hni]; exact h.tool_lt,
      by rw [htx]; exact h.tool_nd, by rw [hti, hni]; exact h.text_lt,
      by rw [hti, htx]; exact h.text_nt, ?_, ?_, ?_⟩
    · intro b2 hb2
      rw [hss] at hb2
      rw [htx]
      rcases List.mem_append.1 hb2 with hm | hm
      · exact h.sent_sub b2 hm
      · simp only [List.mem_singleton] at hm
        subst hm
        exact hb
    · rw [hss]
      simp only [List.nodup_append, List.nodup_cons, List.not_mem_nil,
        not_false_iff, List.nodup_nil, true_and, and_true]
      refine ⟨h.sent_nd, ?_⟩
      intro a ha
      simp only [List.mem_singleton]
      intro hab
      subst hab
      exact hnb ha
    · intro b2 hb2
      rw [hss] at hb2
      rcases List.mem_append.1 hb2 with hm | hm
      · rcases h.sent_open b2 hm with ⟨ts2, hl2, ho2⟩
        exact ⟨ts2, by rw [hts]; exact hl2, ho2⟩
      · simp only [List.mem_singleton] at hm
        subst hm
        exact ⟨ts, by rw [hts]; exact hlook, hopen⟩
  · simp only [startIndices, List.filterMap_cons, startIndex, List.filterMap_nil]
    unfold started
    rw [hti, hss, ← List.append_assoc]
  · intro e he
    simp only [List.mem_singleton] at he
    simp [he, isLoopEvent]
  · intro e he i hi
    simp only [List.mem_singleton] at he
    subst he
    simp only [evIndex, Option.some_inj] at hi
    subst hi
    exact mem_started.2 (Or.inr hbmem)

/-- A state-preserving step emitting one `input_json_delta` on an
already-started tool block. -/
theorem StepSpec.emit_delta_args {s : St} (h : StInv s) {b : Nat} (a : String)
    (hbs : b ∈ s.sentStarts) :
    StepSpec s s [AnthropicEvent.content_block_delta_args b a] := by
  refine ⟨h, le_refl _, fun t ht => ht, ⟨[], by simp⟩, ?_, ?_, ?_⟩
  · simp only [startIndices, List.filterMap_cons, startIndex, List.filterMap_nil,
      List.append_nil]
    exact List.Perm.refl _
  · intro e he
    simp only [List.mem_singleton] at he
    simp [he, isLoopEvent]
  · intro e he i hi
    simp only [List.mem_singleton] at he
    subst he
    simp only [evIndex, Option.some_inj] at hi
    subst hi
    exact mem_started.2 (Or.inr hbs)

theorem processToolDeltaCore_spec (b : Nat) (td : DeltaToolCall) {s1 : St}
    (h : StInv s1) (hb : b ∈ toolIdxs s1) :
    StepSpec s1 (processToolDeltaCore s1 b td).1 (processToolDeltaCore s1 b td).2 := by
  have hopen2 : ∀ ts0, lookupN b s1.toolStates = some ts0 →
      toolOpenable ts0 = true →
      toolOpenable (updateToolState
        ((lookupN b s1.toolStates).getD { id := "", name := "", argumentsBuffer := "" }) td)
        = true := by
    intro ts0 hl ho
    rw [hl, Option.getD_some]
    exact updateToolState_openable td ho
  obtain ⟨hstep1, hlook2⟩ :=
    StepSpec.set_tool ({ s1 with
        toolStates := setEntry s1.toolStates b
          (updateToolState
            ((lookupN b s1.toolStates).getD { id := "", name := "", argumentsBuffer := "" }) td),
        outputTokens := s1.outputTokens +
          (match tdArgs td with
           | some a => estimateTokenCount a
           | none => 0) })
      h hb hopen2 rfl rfl rfl rfl rfl
  simp only [processToolDeltaCore]
  by_cases hsn : (!s1.sentStarts.contains b &&
      toolOpenable (updateToolState
        ((lookupN b s1.toolStates).getD { id := "", name := "", argumentsBuffer := "" }) td))
      = true
  · have hsn2 := hsn
    rw [Bool.and_eq_true] at hsn2
    obtain ⟨hnc, hop⟩ := hsn2
    have hnb : b ∉ s1.sentStarts := by
      intro hmem
      rw [Bool.not_eq_true'] at hnc
      exact absurd (contains_true_iff_mem.2 hmem) (by rw [hnc]; simp)
    have hstep2 := StepSpec.start_tool ({ s1 with
        toolStates := setEntry s1.toolStates b
          (updateToolState
            ((lookupN b s1.toolStates).getD { id := "", name := "", argumentsBuffer := "" }) td),
        outputTokens := s1.outputTokens +
          (match tdArgs td with
           | some a => estimateTokenCount a
           | none => 0),
        sentStarts := s1.sentStarts ++ [b] })
      hstep1.inv
      (updateToolState ((lookupN b s1.toolStates).getD
        { id := "", name := "", argumentsBuffer := "" }) td).id
      (updateToolState ((lookupN b s1.toolStates).getD
        { id := "", name := "", argumentsBuffer := "" }) td).name
      hb hlook2 hop hnb rfl rfl rfl rfl rfl
    have hcontains : (s1.sentStarts ++ [b]).contains b = true :=
      contains_true_iff_mem.2 (by simp)
    simp only [hsn, if_true, hcontains]
    cases hta : tdArgs td with
    | some a =>
      have hstep3 := StepSpec.emit_delta_args hstep2.inv a
        (by simp : b ∈ (({ s1 with
            toolStates := setEntry s1.toolStates b
              (updateToolState
                ((lookupN b s1.toolStates).getD { id := "", name := "", argumentsBuffer := "" }) td),
            outputTokens := s1.outputTokens +
              (match tdArgs td with
               | some a2 => estimateTokenCount a2
               | none => 0),
            sentStarts := s1.sentStarts ++ [b] } : St).sentStarts))
      have htot := (hstep1.trans hstep2).trans hstep3
      simpa [hta] using htot
    | none =>
      have htot := hstep1.trans hstep2
      simpa [hta] using htot
  · simp only [hsn, if_false, Bool.false_eq_true]
    cases hta : tdArgs td with
    | some a =>
      by_cases hcb : b ∈ s1.sentStarts
      · have hstep3 := StepSpec.emit_delta_args hstep1.inv a hcb
        have htot := hstep1.trans hstep3
        simpa [hta, hcb] using htot
      · simpa [hta, hcb] using hstep1
    | none =>
      simpa [hta] using hstep1

theorem processToolDelta_spec (r : String) (td : DeltaToolCall) {s : St} (h : StInv s) :
    StepSpec s (processToolDelta r s td).1 (processToolDelta r s td).2 := by
  obtain ⟨hallo, hbmem⟩ := allocTool_spec r td h
  have hcore := processToolDeltaCore_spec (allocTool r s td).2 td hallo.inv hbmem
  have htot := hallo.trans hcore
  simpa [processToolDelta] using htot

theorem processToolDeltas_spec (r : String) (tds : List DeltaToolCall) :
    ∀ {s : St}, StInv s →
      StepSpec s (processToolDeltas r s tds).1 (processToolDeltas r s tds).2 := by
  induction tds with
  | nil =>
    intro s h
    simpa [processToolDeltas] using StepSpec.refl h
  | cons td rest ih =>
    intro s h
    have h1 := processToolDelta_spec r td h
    have h2 := ih h1.inv
    simpa [processToolDeltas] using h1.trans h2

theorem applyFinish_spec (rsn : String) {s : St} (h : StInv s) :
    StepSpec s (applyFinish s rsn) [] :=
  StepSpec.noop h rfl rfl rfl rfl rfl

theorem processChunk_spec (r : String) (ch : Chunk) {s : St} (h : StInv s) :
    StepSpec s (processChunk r s ch).1 (processChunk r s ch).2.1 := by
  unfold processChunk
  cases hcs : ch.choices with
  | nil => exact StepSpec.refl h
  | cons choice rest =>
    obtain ⟨⟨dcontent, dtool⟩, dfin⟩ := choice
    dsimp only
    have h1 := processText_spec dcontent h
    cases dtool with
    | none =>
      by_cases hf : truthyS dfin = true
      · have h2 := applyFinish_spec (dfin.getD "") h1.inv
        have htot := h1.trans h2
        rw [if_pos hf]
        simpa using htot
      · rw [if_neg hf]
        simpa using h1
    | some tds =>
      have h2 := processToolDeltas_spec r tds h1.inv
      by_cases hf : truthyS dfin = true
      · have h3 := applyFinish_spec (dfin.getD "") (h1.trans h2).inv
        have htot := (h1.trans h2).trans h3
        rw [if_pos hf]
        simpa using htot
      · rw [if_neg hf]
        simpa using h1.trans h2

theorem runLoop_spec (r : String) (chunks : List Chunk) :
    ∀ {s : St}, StInv s →
      StepSpec s (runLoop r s chunks).1 (runLoop r s chunks).2 := by
  induction chunks with
  | nil =>
    intro s h
    simpa [runLoop] using StepSpec.refl h
  | cons ch rest ih =>
    intro s h
    have h1 := processChunk_spec r ch h
    unfold runLoop
    by_cases hbk : (processChunk r s ch).2.2 = true
    · simp only [hbk, if_true]
      exact h1
    · simp only [hbk, if_false, Bool.false_eq_true]
      have h2 := ih h1.inv
      exact h1.trans h2

/-! ### Observations on the epilogue and the assembled stream -/

theorem isLoopEvent_isMid {e : AnthropicEvent} (h : isLoopEvent e = true) :
    isMidEvent e = true := by
  cases e <;> simp [isLoopEvent, isMidEvent] at h ⊢

theorem isLoopEvent_stopIndex {e : AnthropicEvent} (h : isLoopEvent e = true) :
    stopIndex e = none := by
  cases e <;> simp [isLoopEvent, stopIndex] at h ⊢

theorem started_nodup {s : St} (h : StInv s) : (started s).Nodup := by
  cases ht : s.textIdx with
  | none =>
    unfold started
    rw [ht]
    simpa using h.sent_nd
  | some t =>
    unfold started
    rw [ht]
    simp only [List.singleton_append, List.nodup_cons]
    refine ⟨?_, h.sent_nd⟩
    intro hmem
    exact h.text_nt t ht (h.sent_sub t hmem)

theorem startIndices_epilogue (s : St) : startIndices (epilogue s) = [] := by
  unfold epilogue textStopEvents
  cases s.textIdx <;>
    simp [startIndices, startIndex, List.filterMap_append, List.filterMap_map,
      Function.comp]

theorem stopIndices_epilogue (s : St) : stopIndices (epilogue s) = started s := by
  have hmap : (stopIndex ∘ fun b => AnthropicEvent.content_block_stop b) = some := by
    funext b
    rfl
  unfold epilogue textStopEvents started
  cases s.textIdx <;>
    simp [stopIndices, stopIndex, List.filterMap_append, List.filterMap_map, hmap,
      List.filterMap_some]

theorem epilogue_mid (s : St) :
    ∀ e ∈ textStopEvents s ++ s.sentStarts.map (fun b => AnthropicEvent.content_block_stop b),
      isMidEvent e = true := by
  intro e he
  rcases List.mem_append.1 he with he | he
  · unfold textStopEvents at he
    cases ht : s.textIdx with
    | none => rw [ht] at he; simp at he
    | some t =>
      rw [ht] at he
      simp only [List.mem_singleton] at he
      simp [he, isMidEvent]
  · rcases List.mem_map.1 he with ⟨b, _, hbe⟩
    simp [← hbe, isMidEvent]

theorem epilogue_indices (s : St) :
    ∀ e ∈ epilogue s, ∀ i, evIndex e = some i → i ∈ started s := by
  intro e he i hi
  unfold epilogue at he
  rcases List.mem_append.1 he with he | he
  · rcases List.mem_append.1 he with he | he
    · unfold textStopEvents at he
      cases ht : s.textIdx with
      | none => rw [ht] at he; simp at he
      | some t =>
        rw [ht] at he
        simp only [List.mem_singleton] at he
        subst he
        simp only [evIndex, Option.some_inj] at hi
        subst hi
        exact mem_started.2 (Or.inl ht)
    · rcases List.mem_map.1 he with ⟨b, hbm, hbe⟩
      subst hbe
      simp only [evIndex, Option.some_inj] at hi
      subst hi
      exact mem_started.2 (Or.inr hbm)
  · simp only [List.mem_cons, List.mem_singleton] at he
    rcases he with he | he | he
    · subst he; simp [evIndex] at hi
    · subst he; simp [evIndex] at hi
    · simp at he

/-- The assembled stream, written as message frame around loop and
epilogue. -/
theorem convert_decompose (model : String) (tok : TokensVal) (rid : String)
    (chunks : List Chunk) :
    convertOpenAIStreamToAnthropic model tok rid chunks
      = AnthropicEvent.message_start model tok [] :: AnthropicEvent.ping ::
        ((runLoop rid initSt chunks).2 ++ epilogue (runLoop rid initSt chunks).1) := rfl

theorem drop_last_two {α : Type} (l : List α) (a b : α) :
    (l ++ [a, b]).drop ((l ++ [a, b]).length - 2) = [a, b] := by
  have h : (l ++ [a, b]).length - 2 = l.length := by simp
  rw [h, List.drop_left]

/-! ### Stop-reason stability when no finish reason arrives -/

/-- A chunk carries no (truthy) finish reason on the choice the
transcoder reads. -/
def chunkNoFinish (ch : Chunk) : Bool :=
  match ch.choices with
  | [] => true
  | c :: _ => !truthyS c.finish_reason

theorem processText_stopReason (s : St) (c : Option String) :
    (processText s c).1.stopReason = s.stopReason := by
  unfold processText
  by_cases hc : truthyS c = true
  · rw [if_pos hc]
    cases ht : s.textIdx <;> simp [ht]
  · rw [if_neg hc]

theorem allocTool_stopReason (r : String) (s : St) (td : DeltaToolCall) :
    (allocTool r s td).1.stopReason = s.stopReason := by
  unfold allocTool
  cases hl : lookupN td.index s.toolIdxMap <;> simp [hl]

theorem processToolDelta_stopReason (r : String) (s : St) (td : DeltaToolCall) :
    (processToolDelta r s td).1.stopReason = s.stopReason := by
  unfold processToolDelta processToolDeltaCore
  by_cases hsn : (!(allocTool r s td).1.sentStarts.contains (allocTool r s td).2 &&
      toolOpenable (updateToolState
        ((lookupN (allocTool r s td).2 (allocTool r s td).1.toolStates).getD
          { id := "", name := "", argumentsBuffer := "" }) td)) = true
  · simp only [hsn, if_true]
    exact allocTool_stopReason r s td
  · simp only [hsn, if_false, Bool.false_eq_true]
    exact allocTool_stopReason r s td

theorem processToolDeltas_stopReason (r : String) (tds : List DeltaToolCall) :
    ∀ (s : St), (processToolDeltas r s tds).1.stopReason = s.stopReason := by
  induction tds with
  | nil => intro s; rfl
  | cons td rest ih =>
    intro s
    show (processToolDeltas r (processToolDelta r s td).1 rest).1.stopReason = s.stopReason
    rw [ih, processToolDelta_stopReason]

theorem processChunk_noFinish (r : String) (s : St) (ch : Chunk)
    (hnf : chunkNoFinish ch = true) :
    (processChunk r s ch).1.stopReason = s.stopReason ∧
      (processChunk r s ch).2.2 = false := by
  unfold processChunk
  unfold chunkNoFinish at hnf
  cases hcs : ch.choices with
  | nil => exact ⟨rfl, rfl⟩
  | cons choice rest =>
    rw [hcs] at hnf
    obtain ⟨⟨dcontent, dtool⟩, dfin⟩ := choice
    dsimp only at hnf ⊢
    have hf : ¬ truthyS dfin = true := by
      rw [Bool.not_eq_true'] at hnf
      rw [hnf]
      simp
    rw [if_neg hf]
    cases dtool with
    | none => exact ⟨processText_stopReason s dcontent, rfl⟩
    | some tds =>
      refine ⟨?_, rfl⟩
      rw [processToolDeltas_stopReason, processText_stopReason]

theorem runLoop_noFinish (r : String) (chunks : List Chunk)
    (hnf : ∀ ch ∈ chunks, chunkNoFinish ch = true) :
    ∀ (s : St), (runLoop r s chunks).1.stopReason = s.stopReason := by
  induction chunks with
  | nil => intro s; rfl
  | cons ch rest ih =>
    intro s
    have hch := processChunk_noFinish r s ch (hnf ch (by simp))
    unfold runLoop
    simp only [hch.2, Bool.false_eq_true, if_false]
    rw [ih (fun c hc => hnf c (by simp [hc]))]
    exact hch.1

theorem lookupN_some_mem_keys {α : Type} {k : Nat} {v : α} :
    ∀ {m : List (Nat × α)}, lookupN k m = some v → k ∈ m.map (fun p => p.1) := by
  intro m
  induction m with
  | nil => intro h; simp [lookupN] at h
  | cons hd tl ih =>
    intro h
    simp only [lookupN] at h
    by_cases hk : k = hd.1
    · simp [hk]
    · simp only [if_neg hk] at h
      simp [ih h]

theorem startIndices_append (a b : List AnthropicEvent) :
    startIndices (a ++ b) = startIndices a ++ startIndices b := by
  simp [startIndices]

theorem stopIndices_append (a b : List AnthropicEvent) :
    stopIndices (a ++ b) = stopIndices a ++ stopIndices b := by
  simp [stopIndices]

theorem startIndices_frame (model : String) (tok : TokensVal)
    (c : List ContentBlock) (l : List AnthropicEvent) :
    startIndices (AnthropicEvent.message_start model tok c
        :: AnthropicEvent.ping :: l) = startIndices l := by
  simp [startIndices, startIndex]

theorem stopIndices_frame (model : String) (tok : TokensVal)
    (c : List ContentBlock) (l : List AnthropicEvent) :
    stopIndices (AnthropicEvent.message_start model tok c
        :: AnthropicEvent.ping :: l) = stopIndices l := by
  simp [stopIndices, stopIndex]

/-- The last two events of every normally-terminating run are the
`message_delta` carrying the final stop reason and token estimate,
then `message_stop`. -/
theorem convert_drop_last_two (model : String) (tok : TokensVal) (rid : String)
    (chunks : List Chunk) :
    (convertOpenAIStreamToAnthropic model tok rid chunks).drop
        ((convertOpenAIStreamToAnthropic model tok rid chunks).length - 2)
      = [AnthropicEvent.message_delta (runLoop rid initSt chunks).1.stopReason
          (runLoop rid initSt chunks).1.outputTokens,
         AnthropicEvent.message_stop] := by
  have hdec : convertOpenAIStreamToAnthropic model tok rid chunks
      = (AnthropicEvent.message_start model tok [] :: AnthropicEvent.ping ::
          ((runLoop rid initSt chunks).2
            ++ (textStopEvents (runLoop rid initSt chunks).1
              ++ (runLoop rid initSt chunks).1.sentStarts.map
                  (fun b => AnthropicEvent.content_block_stop b))))
        ++ [AnthropicEvent.message_delta (runLoop rid initSt chunks).1.stopReason
              (runLoop rid initSt chunks).1.outputTokens,
            AnthropicEvent.message_stop] := by
    rw [convert_decompose]
    unfold epilogue
    simp [List.append_assoc]
  rw [hdec, drop_last_two]

/-! ### Concrete inputs used by counterexamples and witnesses -/

/-- A chunk whose only choice carries the given delta and finish
reason. -/
def mkChunk (d : Delta) (fin : Option String) : Chunk :=
  { choices := [{ delta := d
                  finish_reason := fin }] }

/-- A delta carrying a single tool-call fragment. -/
def mkToolDelta (idx : Nat) (id : Option String) (nm : Option String)
    (args : Option String) : Delta :=
  { content := none
    tool_calls := some [{ index := idx
                          id := id
                          function := some { name := nm, arguments := args } }] }

/-- A two-chunk tool-call stream whose id and name arrive only on the
final fragment: the first chunk buffers the fragment `{"a":`, the
second supplies id `i`, name `n`, the fragment `1}` and finish reason
`tool_calls`. -/
def lateIdChunks : List Chunk :=
  [mkChunk (mkToolDelta 0 none none (some "\x7b\"a\":")) none,
   mkChunk (mkToolDelta 0 (some "i") (some "n") (some "1\x7d")) (some "tool_calls")]

/-- A stream that allocates tool block 0 (no id or name yet), then
opens text block 1, then opens tool block 0: the `content_block_start`
events are emitted with indices 1 then 0. -/
def lateOpenChunks : List Chunk :=
  [mkChunk (mkToolDelta 0 none none none) none,
   mkChunk { content := some "hi", tool_calls := none } none,
   mkChunk (mkToolDelta 0 (some "i") (some "n") none) none]

/-- A stream with a single argument fragment for a tool whose id and
name never arrive. -/
def neverOpenChunks : List Chunk :=
  [mkChunk (mkToolDelta 0 none none (some "x")) none]

/-- A completed response whose only tool call carries the malformed
arguments string of the spec scenario. -/
def badJsonResponse : ChatCompletionResponse :=
  { id := some "x"
    choices := [{ message := { content := none
                               tool_calls := some [{ id := "t1"
                                                     type := "function"
                                                     function := { name := "f"
                                                                   arguments := "\x7bbad json" } }] }
                  finish_reason := "tool_calls" }] }

/-- A completed response with no choices at all. -/
def emptyResponse : ChatCompletionResponse :=
  { id := none
    choices := [] }

/-! ### Claim theorems -/

/-- Claim C1 (code-bug evaluation): on the stream `lateIdChunks` the
tool id and name arrive only on the final fragment.  The block does
open (its `content_block_start` is emitted) and the buffered state
holds the concatenation of both received argument fragments, yet the
only `input_json_delta` payload emitted is the final fragment `1}`:
the fragment `{"a":` buffered before the block became openable is
never flushed, so the concatenation of emitted payloads is not the
concatenation of the received fragments — the claimed no-data-loss
flush does not happen. -/
theorem c1_buffered_fragments_dropped :
    AnthropicEvent.content_block_start_tool 0 "i" "n"
        ∈ convertOpenAIStreamToAnthropic "m" (TokensVal.ofNat 7) "r" lateIdChunks ∧
    argPayloads 0 (convertOpenAIStreamToAnthropic "m" (TokensVal.ofNat 7) "r" lateIdChunks)
        = ["1\x7d"] ∧
    lookupN 0 (runLoop "r" initSt lateIdChunks).1.toolStates
        = some { id := "i", name := "n", argumentsBuffer := "\x7b\"a\":" ++ "1\x7d" } ∧
    ("1\x7d" : String) ≠ "\x7b\"a\":" ++ "1\x7d" := by
  refine ⟨?_, rfl, rfl, by decide⟩
  rw [show convertOpenAIStreamToAnthropic "m" (TokensVal.ofNat 7) "r" lateIdChunks
      = [AnthropicEvent.message_start "m" (TokensVal.ofNat 7) [],
         AnthropicEvent.ping,
         AnthropicEvent.content_block_start_tool 0 "i" "n",
         AnthropicEvent.content_block_delta_args 0 "1\x7d",
         AnthropicEvent.content_block_stop 0,
         AnthropicEvent.message_delta "tool_use" 3,
         AnthropicEvent.message_stop] from rfl]
  simp

/-- Claim C2: on every input chunk sequence (the embedding is the
normally-terminating run), the emitted sequence is exactly one
`message_start` — carrying the estimated input-token value and the
empty content array — then exactly one `ping`, then block-level events
only, then exactly one `message_delta` followed by exactly one
`message_stop`, with nothing after it. -/
theorem c2_stream_framing (model : String) (tok : TokensVal) (rid : String)
    (chunks : List Chunk) :
    ∃ mid sr out,
      convertOpenAIStreamToAnthropic model tok rid chunks
        = AnthropicEvent.message_start model tok [] :: AnthropicEvent.ping ::
          (mid ++ [AnthropicEvent.message_delta sr out, AnthropicEvent.message_stop]) ∧
      ∀ e ∈ mid, isMidEvent e = true := by
  have hspec := runLoop_spec rid chunks initSt_inv
  refine ⟨(runLoop rid initSt chunks).2
      ++ (textStopEvents (runLoop rid initSt chunks).1
        ++ (runLoop rid initSt chunks).1.sentStarts.map
            (fun b => AnthropicEvent.content_block_stop b)),
    (runLoop rid initSt chunks).1.stopReason,
    (runLoop rid initSt chunks).1.outputTokens, ?_, ?_⟩
  · rw [convert_decompose]
    unfold epilogue
    simp [List.append_assoc]
  · intro e he
    rcases List.mem_append.1 he with he | he
    · exact isLoopEvent_isMid (hspec.loop_only e he)
    · exact epilogue_mid _ e he

/-- Claim C3 (counterexample): on `lateOpenChunks` the indices carried
by the `content_block_start` events are emitted in the order `[1, 0]` —
not strictly increasing — because tool block 0 is allocated before text
block 1 but becomes openable only after the text block has started. -/
theorem c3_start_indices_not_increasing :
    startIndices (convertOpenAIStreamToAnthropic "m" (TokensVal.ofNat 0) "r" lateOpenChunks)
        = [1, 0] ∧
    ¬ List.Chain' (fun a b => a < b)
        (startIndices
          (convertOpenAIStreamToAnthropic "m" (TokensVal.ofNat 0) "r" lateOpenChunks)) := by
  refine ⟨rfl, ?_⟩
  rw [show startIndices
        (convertOpenAIStreamToAnthropic "m" (TokensVal.ofNat 0) "r" lateOpenChunks)
      = [1, 0] from rfl]
  simp [List.chain'_cons]

/-- Claim C3 (amended): block indices are allocated in strictly
increasing first-use order, but `content_block_start` events can be
emitted out of index order; what holds of the event sequence is the
pairing discipline: the emitted start indices are pairwise distinct,
the stop indices are exactly the start indices up to order, and every
start precedes every stop (the stream splits into a stop-free prefix
and a start-free suffix). -/
theorem c3_start_stop_pairing (model : String) (tok : TokensVal) (rid : String)
    (chunks : List Chunk) :
    (startIndices (convertOpenAIStreamToAnthropic model tok rid chunks)).Nodup ∧
    (stopIndices (convertOpenAIStreamToAnthropic model tok rid chunks)).Perm
      (startIndices (convertOpenAIStreamToAnthropic model tok rid chunks)) ∧
    ∃ a b, convertOpenAIStreamToAnthropic model tok rid chunks = a ++ b ∧
      stopIndices a = [] ∧ startIndices b = [] := by
  have hspec := runLoop_spec rid chunks initSt_inv
  have hln : stopIndices (runLoop rid initSt chunks).2 = [] := by
    unfold stopIndices
    rw [List.filterMap_eq_nil_iff]
    intro e he
    exact isLoopEvent_stopIndex (hspec.loop_only e he)
  have hstarts : startIndices (convertOpenAIStreamToAnthropic model tok rid chunks)
      = startIndices (runLoop rid initSt chunks).2 := by
    rw [convert_decompose, startIndices_frame, startIndices_append,
      startIndices_epilogue, List.append_nil]
  have hstops : stopIndices (convertOpenAIStreamToAnthropic model tok rid chunks)
      = started (runLoop rid initSt chunks).1 := by
    rw [convert_decompose, stopIndices_frame, stopIndices_append,
      stopIndices_epilogue, hln, List.nil_append]
  have hperm0 : (startIndices (runLoop rid initSt chunks).2).Perm
      (started (runLoop rid initSt chunks).1) := by
    have hp := hspec.starts_perm
    simpa [started, initSt] using hp
  refine ⟨?_, ?_, ?_⟩
  · rw [hstarts]
    exact hperm0.nodup_iff.2 (started_nodup hspec.inv)
  · rw [hstarts, hstops]
    exact hperm0.symm
  · refine ⟨AnthropicEvent.message_start model tok [] :: AnthropicEvent.ping ::
      (runLoop rid initSt chunks).2, epilogue (runLoop rid initSt chunks).1,
      ?_, ?_, startIndices_epilogue _⟩
    · rw [convert_decompose]
      rfl
    · rw [stopIndices_frame]
      exact hln

/-- Claim C4 (counterexample): the stop-reason mapping is not
idempotent: `length` maps to `max_tokens`, but `max_tokens` is not a
key of the table and maps to the default `end_turn`. -/
theorem c4_stop_reason_map_not_idempotent :
    openaiToAnthropicStopReason (openaiToAnthropicStopReason "length")
      ≠ openaiToAnthropicStopReason "length" := by
  decide

/-- Claim C4 (amended): none of the table's output values is a key of
the table, so applying the mapping twice yields `end_turn` for every
input string; the mapping agrees with its double application exactly on
inputs it sends to `end_turn`. -/
theorem c4_double_application_end_turn (s : String) :
    openaiToAnthropicStopReason (openaiToAnthropicStopReason s) = "end_turn" := by
  have h4 : openaiToAnthropicStopReason s = "end_turn" ∨
      openaiToAnthropicStopReason s = "max_tokens" ∨
      openaiToAnthropicStopReason s = "tool_use" ∨
      openaiToAnthropicStopReason s = "stop_sequence" := by
    unfold openaiToAnthropicStopReason
    split_ifs <;> simp
  rcases h4 with h | h | h | h <;> rw [h] <;> decide

/-- Claim C5 (counterexample): on the empty chunk sequence — an
upstream that ends without ever carrying a finish reason — the
transcoder does not stop after the current chunk: it still emits the
full epilogue, ending in `message_delta` (default stop reason
`end_turn`) and `message_stop`. -/
theorem c5_epilogue_after_exhaustion_cex :
    convertOpenAIStreamToAnthropic "m" (TokensVal.ofNat 0) "r" []
        = [AnthropicEvent.message_start "m" (TokensVal.ofNat 0) [],
           AnthropicEvent.ping,
           AnthropicEvent.message_delta "end_turn" 0,
           AnthropicEvent.message_stop] ∧
    AnthropicEvent.message_stop
        ∈ convertOpenAIStreamToAnthropic "m" (TokensVal.ofNat 0) "r" [] := by
  refine ⟨rfl, ?_⟩
  rw [show convertOpenAIStreamToAnthropic "m" (TokensVal.ofNat 0) "r" []
      = [AnthropicEvent.message_start "m" (TokensVal.ofNat 0) [],
         AnthropicEvent.ping,
         AnthropicEvent.message_delta "end_turn" 0,
         AnthropicEvent.message_stop] from rfl]
  simp

/-- Claim C5 (amended): when the inbound chunk sequence is exhausted
without any chunk carrying a truthy finish reason, the transcoder does
not terminate silently: it falls through to the normal epilogue, so the
emitted sequence still ends with `message_delta` — whose stop reason is
the default `end_turn` — followed by `message_stop`. -/
theorem c5_exhaustion_runs_epilogue (model : String) (tok : TokensVal) (rid : String)
    (chunks : List Chunk) (h : chunks.all chunkNoFinish = true) :
    (convertOpenAIStreamToAnthropic model tok rid chunks).drop
        ((convertOpenAIStreamToAnthropic model tok rid chunks).length - 2)
      = [AnthropicEvent.message_delta "end_turn"
          (runLoop rid initSt chunks).1.outputTokens,
         AnthropicEvent.message_stop] := by
  have hsr : (runLoop rid initSt chunks).1.stopReason = "end_turn" := by
    rw [List.all_eq_true] at h
    rw [runLoop_noFinish rid chunks h initSt]
    rfl
  rw [convert_drop_last_two, hsr]

/-- Witness for the amended Claim C5, at the empty chunk sequence. -/
theorem c5_exhaustion_runs_epilogue_witness :
    ([] : List Chunk).all chunkNoFinish = true ∧
    (convertOpenAIStreamToAnthropic "m" (TokensVal.ofNat 0) "r" []).drop
        ((convertOpenAIStreamToAnthropic "m" (TokensVal.ofNat 0) "r" []).length - 2)
      = [AnthropicEvent.message_delta "end_turn" 0, AnthropicEvent.message_stop] :=
  ⟨rfl, c5_exhaustion_runs_epilogue "m" (TokensVal.ofNat 0) "r" [] rfl⟩

/-- Claim C6 (code-bug evaluation): the streaming branch of the
handler passes the whole `getTokenCount` record — not its integer
`input` component — as `estimatedInputTokens`, so the `message_start`
event is seeded with the record value, which is not equal to any
integer value. -/
theorem c6_message_start_seeded_with_record (countTok : List ChatMessage → Nat)
    (openaiMessages : List Message) (model rid : String) (chunks : List Chunk) :
    (handleStreaming countTok openaiMessages model rid chunks).head?
        = some (AnthropicEvent.message_start model
            (TokensVal.ofCount (getTokenCount countTok openaiMessages)) []) ∧
    ∀ n : Nat, TokensVal.ofCount (getTokenCount countTok openaiMessages)
        ≠ TokensVal.ofNat n := by
  refine ⟨rfl, ?_⟩
  intro n h
  exact TokensVal.noConfusion h

/-- Claim C7: the non-streaming translator JSON-parses each tool call's
arguments string; a parsed object (or array — `typeof` calls arrays
objects) is used as the input directly, any other parsed value is
wrapped as `{value: scalar}`, and a parse failure yields
`{error_parsing_arguments: raw}` with no exception (the embedding is
total).  In particular `{bad json` fails to parse, and on
`badJsonResponse` the translated content is the single `tool_use` block
with the error-sentinel input. -/
theorem c7_tool_input_classification :
    (∀ a ms, parseJson a = some (Json.obj ms) → toolInputDict a = Json.obj ms) ∧
    (∀ a es, parseJson a = some (Json.arr es) → toolInputDict a = Json.arr es) ∧
    (∀ a j, parseJson a = some j → (∀ ms, j ≠ Json.obj ms) → (∀ es, j ≠ Json.arr es) →
      toolInputDict a = Json.obj [("value", j)]) ∧
    (∀ a, parseJson a = none →
      toolInputDict a = Json.obj [("error_parsing_arguments", Json.str a)]) ∧
    parseJson "\x7bbad json" = none ∧
    (convertOpenAIToAnthropicResponse badJsonResponse "claude-3" "req").content
        = [ContentBlock.tool_use "t1" "f"
            (Json.obj [("error_parsing_arguments", Json.str "\x7bbad json")])] := by
  refine ⟨?_, ?_, ?_, ?_, rfl, rfl⟩
  · intro a ms h
    unfold toolInputDict
    rw [h]
  · intro a es h
    unfold toolInputDict
    rw [h]
  · intro a j h hms hes
    unfold toolInputDict
    rw [h]
    cases j with
    | obj ms => exact absurd rfl (hms ms)
    | arr es => exact absurd rfl (hes es)
    | null => rfl
    | bool b => rfl
    | num raw => rfl
    | str s => rfl
  · intro a h
    unfold toolInputDict
    rw [h]

/-- Witness for Claim C7: the parse-failure case evaluated at the
spec's concrete malformed input. -/
theorem c7_tool_input_classification_witness :
    toolInputDict "\x7bbad json"
      = Json.obj [("error_parsing_arguments", Json.str "\x7bbad json")] :=
  c7_tool_input_classification.2.2.2.1 "\x7bbad json"
    c7_tool_input_classification.2.2.2.2.1

/-- Claim C8 (counterexample): an absent tool choice does not map to
`auto`: the converter returns `undefined`, and the handler therefore
omits `tool_choice` from the payload entirely. -/
theorem c8_absent_tool_choice_not_auto :
    convertAnthropicToolChoiceToOpenAI none = none ∧
    convertAnthropicToolChoiceToOpenAI none ≠ some OpenAIToolChoice.auto ∧
    payloadToolChoice none = none := by
  refine ⟨rfl, ?_, rfl⟩
  intro h
  exact Option.noConfusion h

/-- Claim C8 (amended): `auto` and `any` map to `auto`; `tool` with a
truthy name maps to the forced named form and `tool` with a falsy name
to `auto`; every other present choice maps to `auto`; an absent choice
maps to `undefined`, so the payload then carries no `tool_choice`
field. -/
theorem c8_tool_choice_mapping :
    (∀ n, convertAnthropicToolChoiceToOpenAI (some { type := "auto", name := n })
        = some OpenAIToolChoice.auto) ∧
    (∀ n, convertAnthropicToolChoiceToOpenAI (some { type := "any", name := n })
        = some OpenAIToolChoice.auto) ∧
    (∀ n, truthyS n = true →
      convertAnthropicToolChoiceToOpenAI (some { type := "tool", name := n })
        = some (OpenAIToolChoice.function (n.getD ""))) ∧
    (∀ n, truthyS n = false →
      convertAnthropicToolChoiceToOpenAI (some { type := "tool", name := n })
        = some OpenAIToolChoice.auto) ∧
    (∀ ty n, ty ≠ "auto" → ty ≠ "any" → ty ≠ "tool" →
      convertAnthropicToolChoiceToOpenAI (some { type := ty, name := n })
        = some OpenAIToolChoice.auto) ∧
    convertAnthropicToolChoiceToOpenAI none = none := by
  refine ⟨fun n => rfl, fun n => rfl, ?_, ?_, ?_, rfl⟩
  · intro n hn
    simp only [convertAnthropicToolChoiceToOpenAI]
    rw [if_neg (by decide), if_neg (by decide), if_pos ⟨trivial, hn⟩]
  · intro n hn
    simp only [convertAnthropicToolChoiceToOpenAI]
    rw [if_neg (by decide), if_neg (by decide), if_neg (by simp [hn])]
  · intro ty n h1 h2 h3
    simp only [convertAnthropicToolChoiceToOpenAI]
    rw [if_neg (by simpa using h1), if_neg (by simpa using h2),
      if_neg (by simp [h3])]

/-- Witness for the amended Claim C8: a forced named tool choice. -/
theorem c8_tool_choice_mapping_witness :
    convertAnthropicToolChoiceToOpenAI
        (some { type := "tool", name := some "search" })
      = some (OpenAIToolChoice.function "search") :=
  c8_tool_choice_mapping.2.2.1 (some "search") rfl

/-- Claim C9: the translated response's content array is never empty;
when the backend message yields no text and no tool-use blocks, exactly
one empty-text block is synthesized. -/
theorem c9_content_never_empty (r : ChatCompletionResponse) (model rid : String) :
    (convertOpenAIToAnthropicResponse r model rid).content ≠ [] ∧
    (assembledContent r = [] →
      (convertOpenAIToAnthropicResponse r model rid).content
        = [ContentBlock.text ""]) := by
  unfold convertOpenAIToAnthropicResponse
  by_cases he : (assembledContent r).isEmpty = true
  · refine ⟨?_, fun _ => ?_⟩
    · simp [he]
    · simp [he]
  · refine ⟨?_, ?_⟩
    · simp only [he, Bool.false_eq_true, if_false]
      intro hnil
      apply he
      rw [hnil]
      rfl
    · intro hnil
      exact absurd (by rw [hnil]; rfl) he

/-- Witness for Claim C9: a response with no choices synthesizes the
single empty-text block. -/
theorem c9_content_never_empty_witness :
    assembledContent emptyResponse = [] ∧
    (convertOpenAIToAnthropicResponse emptyResponse "m" "r").content
      = [ContentBlock.text ""] :=
  ⟨rfl, (c9_content_never_empty emptyResponse "m" "r").2 rfl⟩

/-- Claim C10: a tool block whose buffered state never becomes
openable (no concrete non-placeholder id together with a non-empty name
ever arrives) produces no events at all: no event of the stream
mentions its block index. -/
theorem c10_unopened_tool_silent (model : String) (tok : TokensVal) (rid : String)
    (chunks : List Chunk) (b : Nat) (ts : ToolState)
    (hlook : lookupN b (runLoop rid initSt chunks).1.toolStates = some ts)
    (hno : toolOpenable ts = false) :
    eventsForIndex b (convertOpenAIStreamToAnthropic model tok rid chunks) = [] := by
  have hspec := runLoop_spec rid chunks initSt_inv
  have hbt : b ∈ toolIdxs (runLoop rid initSt chunks).1 := by
    rw [← hspec.inv.keys_eq]
    exact lookupN_some_mem_keys hlook
  have hnss : b ∉ (runLoop rid initSt chunks).1.sentStarts := by
    intro hmem
    rcases hspec.inv.sent_open b hmem with ⟨ts2, hl2, ho2⟩
    rw [hlook] at hl2
    injection hl2 with he
    rw [he, ho2] at hno
    exact Bool.noConfusion hno
  have hnst : b ∉ started (runLoop rid initSt chunks).1 := by
    rw [mem_started]
    rintro (h | h)
    · exact hspec.inv.text_nt b h hbt
    · exact hnss h
  have hidx : ∀ e ∈ convertOpenAIStreamToAnthropic model tok rid chunks,
      ∀ i, evIndex e = some i → i ∈ started (runLoop rid initSt chunks).1 := by
    intro e he i hi
    rw [convert_decompose] at he
    simp only [List.mem_cons] at he
    rcases he with he | he | he
    · subst he; simp [evIndex] at hi
    · subst he; simp [evIndex] at hi
    · rcases List.mem_append.1 he with he | he
      · exact hspec.idx_in e he i hi
      · exact epilogue_indices _ e he i hi
  unfold eventsForIndex
  rw [List.filter_eq_nil_iff]
  intro e he hbeq
  have hev : evIndex e = some b := by simpa using hbeq
  exact hnst (hidx e he b hev)

/-- Witness for Claim C10: a single never-opened tool block; its
buffered state keeps the placeholder id and empty name, and no event
mentions index 0. -/
theorem c10_unopened_tool_silent_witness :
    lookupN 0 (runLoop "r" initSt neverOpenChunks).1.toolStates
        = some { id := "tool_ph_r_0", name := "", argumentsBuffer := "x" } ∧
    toolOpenable { id := "tool_ph_r_0", name := "", argumentsBuffer := "x" } = false ∧
    eventsForIndex 0
        (convertOpenAIStreamToAnthropic "m" (TokensVal.ofNat 0) "r" neverOpenChunks)
      = [] :=
  ⟨rfl, rfl,
    c10_unopened_tool_silent "m" (TokensVal.ofNat 0) "r" neverOpenChunks 0 _ rfl rfl⟩

end CopilotApi
